import Mathlib

/-!
Verification of the gzip header/trailer parser (src/gzip_parser.c).

The program is a single `main` that reads a 12-byte fixed header (the
10 mandatory bytes plus the optional 2-byte `xlen` slot, since the struct
is padded to 12 bytes), then flag-driven optional fields (extra field,
filename, comment, header checksum), then seeks to 8 bytes before the end
of the file and reads the 4-byte CRC-32 and 4-byte uncompressed size.

The embedding below models the input file as a `List Nat` of bytes and
the parse as a pure function.  The file descriptor's only observable
effect modelled here is whether `close(fd)` was executed on the taken
exit path (`ParseResult.fdClosed`).  The target platform is Linux/x86,
so multi-byte fields are little-endian and `BUFSIZ` is 8192.
-/

namespace Gzip

/-- Flag bit positions, lines 29-33 of gzip_parser.c. -/
def FTEXT : Nat := 0

/-- Flag bit position of the header-checksum field. -/
def FHCRC : Nat := 1

/-- Flag bit position of the extra field. -/
def FEXTRA : Nat := 2

/-- Flag bit position of the filename field. -/
def FNAME : Nat := 3

/-- Flag bit position of the comment field. -/
def FCOMMENT : Nat := 4

/-- Size of the comment buffer (glibc BUFSIZ on the target platform), line 134. -/
def BUFSIZ : Nat := 8192

/-- Little-endian 16-bit value from two bytes. -/
def u16le (a b : Nat) : Nat := a + 256 * b

/-- Little-endian 32-bit value from four bytes. -/
def u32le (a b c d : Nat) : Nat := a + 256 * b + 65536 * c + 16777216 * d

/-- The struct gzip_header of lines 39-48: the 10 mandatory header bytes
plus the 2-byte xlen slot (the struct is padded to 12 bytes, so the
`read` on line 64 always consumes 12 bytes). -/
structure GzipHeader where
  id1 : Nat
  id2 : Nat
  cm : Nat
  flag : Nat
  mtime : Nat
  xfl : Nat
  os : Nat
  xlen : Nat
deriving DecidableEq

/-- Decoding of the first 12 bytes of the stream into struct gzip_header
(the `read(fd, &header, sizeof(struct gzip_header))` on line 64; x86 is
little-endian, struct offsets are 0,1,2,3, 4-7, 8, 9, 10-11). -/
def decodeHeader (d : List Nat) : GzipHeader :=
  { id1 := d.getD 0 0
    id2 := d.getD 1 0
    cm := d.getD 2 0
    flag := d.getD 3 0
    mtime := u32le (d.getD 4 0) (d.getD 5 0) (d.getD 6 0) (d.getD 7 0)
    xfl := d.getD 8 0
    os := d.getD 9 0
    xlen := u16le (d.getD 10 0) (d.getD 11 0) }

/-- The three failure outcomes of the program (its distinct error messages):
a short read, a magic-byte mismatch (line 73), and a failed trailer seek
(line 167). -/
inductive ParseError
  | TruncatedInput
  | InvalidMagic
  | SeekOutOfRange
deriving DecidableEq

/-- Tags recording which optional field was read, in order. -/
inductive Field
  | fextra
  | fname
  | fcomment
  | fhcrc
deriving DecidableEq

/-- The optional header fields actually read; a field left `none` was not
read at all (its flag bit was unset). -/
structure OptFields where
  extra : Option (List Nat)
  filename : Option (List Nat)
  comment : Option (List Nat)
  hcrc : Option Nat
deriving DecidableEq

/-- State threaded through the optional-field stage: the stream cursor,
the fields collected so far, and the order in which they were read. -/
structure OptState where
  pos : Nat
  fields : OptFields
  order : List Field
deriving DecidableEq

/-- Initial optional-field state at a given cursor position. -/
def initState (pos : Nat) : OptState := ⟨pos, ⟨none, none, none, none⟩, []⟩

/-- The byte-at-a-time read loop of lines 120-128 (and 138-146): read one
byte per iteration, store it, stop after storing a zero byte or after the
`b`-th store; `none` when the stream runs out first.  Returns the stored
bytes (the loop stores the terminating zero too). -/
def readZStr (s : List Nat) (b : Nat) : Option (List Nat) :=
  match s, b with
  | _, 0 => some []
  | [], _ + 1 => none
  | c :: rest, _ + 1 =>
    if c = 0 then some [c]
    else
      match readZStr rest (b - 1) with
      | none => none
      | some stored => some (c :: stored)

/-- C string semantics of printf %s: the bytes before the first zero. -/
def cstr : List Nat → List Nat
  | [] => []
  | c :: rest => if c = 0 then [] else c :: cstr rest

/-- The text the program prints for a string buffer of capacity `b` after
the loop: line 129 (resp. 147) overwrites the last buffer byte with zero,
then the buffer is printed with %s. -/
def cstrOutput (stored : List Nat) (b : Nat) : List Nat :=
  cstr (stored.set (b - 1) 0)

/-- Lines 99-110: if FEXTRA is set, read exactly xlen bytes (error if the
stream has fewer); otherwise do nothing. -/
def extraStep (data : List Nat) (flag xlen : Nat) (st : OptState) : Except ParseError OptState :=
  if flag.testBit FEXTRA then
    if (data.drop st.pos).length < xlen then .error .TruncatedInput
    else
      .ok ⟨st.pos + xlen,
           { st.fields with extra := some ((data.drop st.pos).take xlen) },
           st.order ++ [Field.fextra]⟩
  else .ok st

/-- Lines 117-118: the cursor the filename is read from — when FEXTRA is
unset the code first does `lseek(fd, -2, SEEK_CUR)`. -/
def fnamePos (flag pos : Nat) : Nat :=
  if flag.testBit FEXTRA then pos else pos - 2

/-- Lines 112-131: if FNAME is set, retreat 2 bytes when FEXTRA is unset,
then run the zero-terminated read loop with a 128-byte buffer. -/
def fnameStep (data : List Nat) (flag : Nat) (st : OptState) : Except ParseError OptState :=
  if flag.testBit FNAME then
    match readZStr (data.drop (fnamePos flag st.pos)) 128 with
    | none => .error .TruncatedInput
    | some stored =>
      .ok ⟨fnamePos flag st.pos + stored.length,
           { st.fields with filename := some (cstrOutput stored 128) },
           st.order ++ [Field.fname]⟩
  else .ok st

/-- Lines 133-149: if FCOMMENT is set, run the zero-terminated read loop
with a BUFSIZ-byte buffer, starting at the current cursor (no retreat). -/
def fcommentStep (data : List Nat) (flag : Nat) (st : OptState) : Except ParseError OptState :=
  if flag.testBit FCOMMENT then
    match readZStr (data.drop st.pos) BUFSIZ with
    | none => .error .TruncatedInput
    | some stored =>
      .ok ⟨st.pos + stored.length,
           { st.fields with comment := some (cstrOutput stored BUFSIZ) },
           st.order ++ [Field.fcomment]⟩
  else .ok st

/-- Lines 151-160: if FHCRC is set, read 2 bytes as a little-endian u16. -/
def fhcrcStep (data : List Nat) (flag : Nat) (st : OptState) : Except ParseError OptState :=
  if flag.testBit FHCRC then
    if (data.drop st.pos).length < 2 then .error .TruncatedInput
    else
      .ok ⟨st.pos + 2,
           { st.fields with
              hcrc := some (u16le ((data.drop st.pos).getD 0 0) ((data.drop st.pos).getD 1 0)) },
           st.order ++ [Field.fhcrc]⟩
  else .ok st

/-- Lines 99-160: the four optional-field readers run in the fixed order
extra field, filename, comment, header checksum. -/
def optionalStage (data : List Nat) (flag xlen pos : Nat) : Except ParseError OptState :=
  match extraStep data flag xlen (initState pos) with
  | .error e => .error e
  | .ok st1 =>
    match fnameStep data flag st1 with
    | .error e => .error e
    | .ok st2 =>
      match fcommentStep data flag st2 with
      | .error e => .error e
      | .ok st3 => fhcrcStep data flag st3

/-- Lines 166-186: `lseek(fd, -8, SEEK_END)` fails exactly when the file is
shorter than 8 bytes; then a 4-byte CRC-32 and a 4-byte size are read from
the last 8 bytes, little-endian. -/
def trailerRead (data : List Nat) : Except ParseError (Nat × Nat) :=
  if data.length < 8 then .error .SeekOutOfRange
  else
    let t := data.drop (data.length - 8)
    if t.length < 4 then .error .TruncatedInput
    else if (t.drop 4).length < 4 then .error .TruncatedInput
    else
      .ok (u32le (t.getD 0 0) (t.getD 1 0) (t.getD 2 0) (t.getD 3 0),
           u32le (t.getD 4 0) (t.getD 5 0) (t.getD 6 0) (t.getD 7 0))

/-- The informational lines printed for a decoded header, lines 76-97:
the deflate line appears only when cm equals 8; the flags line only when
some flag bit is set; the creation time only when mtime is nonzero; the
XFL and OS lines always. -/
inductive ReportItem
  | methodDeflate
  | flagsLine (flag : Nat)
  | creationTime (t : Nat)
  | xflLine (x : Nat)
  | osLine (unix : Bool)
deriving DecidableEq

/-- The header report of lines 76-97 as a list of printed items. -/
def headerReport (h : GzipHeader) : List ReportItem :=
  (if h.cm = 8 then [ReportItem.methodDeflate] else []) ++
  (if h.flag ≠ 0 then [ReportItem.flagsLine h.flag] else []) ++
  (if h.mtime ≠ 0 then [ReportItem.creationTime h.mtime] else []) ++
  [ReportItem.xflLine h.xfl, ReportItem.osLine (h.os == 3)]

/-- A successful parse: the header, the optional fields in the order they
were read, the cursor position after the optional stage, and the trailer
pair (crc32, isize). -/
structure ParseOk where
  header : GzipHeader
  fields : OptFields
  order : List Field
  endPos : Nat
  trailer : Nat × Nat
deriving DecidableEq

/-- Outcome of a run: a structured result or one of the three errors. -/
inductive Outcome
  | ok (r : ParseOk)
  | err (e : ParseError)
deriving DecidableEq

/-- Outcome of a run together with whether the taken exit path executed
`close(fd)` before returning. -/
structure ParseResult where
  outcome : Outcome
  fdClosed : Bool
deriving DecidableEq

/-- The whole program, lines 62-189, for a given input byte stream:
read 12 bytes (short read closes fd and errors, lines 64-69); check the
magic bytes (the mismatch branch on lines 72-75 returns WITHOUT closing
fd); run the optional-field stage (every error path closes fd); read the
trailer (every path closes fd). -/
def parse (data : List Nat) : ParseResult :=
  if data.length < 12 then ⟨.err .TruncatedInput, true⟩
  else if (decodeHeader data).id1 = 0x1f ∧ (decodeHeader data).id2 = 0x8b then
    match optionalStage data (decodeHeader data).flag (decodeHeader data).xlen 12 with
    | .error e => ⟨.err e, true⟩
    | .ok st =>
      match trailerRead data with
      | .error e => ⟨.err e, true⟩
      | .ok t => ⟨.ok ⟨decodeHeader data, st.fields, st.order, st.pos, t⟩, true⟩
  else ⟨.err .InvalidMagic, false⟩

/-- The error of a run, if any. -/
def errOf (p : ParseResult) : Option ParseError :=
  match p.outcome with
  | .ok _ => none
  | .err e => some e

/-- The comment text of a successful run. -/
def commentProj (p : ParseResult) : Option (List Nat) :=
  match p.outcome with
  | .ok r => r.fields.comment
  | .err _ => none

/-- Line 52/64: `bytes_read` is `unsigned int`, so the signed return value
of `read` is stored reduced modulo 2^32. -/
def storeBytesRead (ret : Int) : Nat :=
  (ret % 4294967296).toNat

/-- Line 65: the short-read check `bytes_read < sizeof(struct gzip_header)`
(sizeof is 12). -/
def headerShortReadDetected (ret : Int) : Bool :=
  decide (storeBytesRead ret < 12)

/-! ### Helper lemmas about `cstr` (the %s view of a buffer) -/

theorem cstr_not_mem_zero (s : List Nat) : 0 ∉ cstr s := by
  induction s with
  | nil => simp [cstr]
  | cons c rest ih =>
    by_cases hc : c = 0
    · simp [cstr, hc]
    · simp only [cstr, if_neg hc, List.mem_cons]
      rintro (h | h)
      · exact hc h.symm
      · exact ih h

theorem cstr_length_le (s : List Nat) : (cstr s).length ≤ s.length := by
  induction s with
  | nil => simp [cstr]
  | cons c rest ih =>
    by_cases hc : c = 0
    · simp [cstr, hc]
    · simp [cstr, hc]
      omega

theorem cstr_length_lt_iff (s : List Nat) : (cstr s).length < s.length ↔ 0 ∈ s := by
  induction s with
  | nil => simp [cstr]
  | cons c rest ih =>
    by_cases hc : c = 0
    · simp [cstr, hc]
    · simp [cstr, hc, ih, eq_comm]

theorem le_cstr_length_of_take (s : List Nat) (b : Nat) (h0 : 0 ∉ s.take b)
    (hb : b ≤ s.length) : b ≤ (cstr s).length := by
  induction s generalizing b with
  | nil => simp at hb; omega
  | cons c rest ih =>
    match b with
    | 0 => exact Nat.zero_le _
    | b + 1 =>
      simp only [List.take_succ_cons, List.mem_cons, not_or] at h0
      have hc : c ≠ 0 := fun h => h0.1 h.symm
      simp only [cstr, if_neg hc, List.length_cons]
      have := ih b h0.2 (by simpa using hb)
      omega

theorem take_cstr_no_zero (s : List Nat) (n : Nat) (h : n ≤ (cstr s).length) :
    0 ∉ s.take n := by
  induction s generalizing n with
  | nil => simp
  | cons c rest ih =>
    match n with
    | 0 => simp
    | n + 1 =>
      by_cases hc : c = 0
      · simp [cstr, hc] at h
      · simp only [cstr, if_neg hc, List.length_cons] at h
        simp only [List.take_succ_cons, List.mem_cons, not_or]
        exact ⟨fun hh => hc hh.symm, ih n (by omega)⟩

theorem cstr_append_zero (t : List Nat) (h : 0 ∉ t) : cstr (t ++ [0]) = t := by
  induction t with
  | nil => simp [cstr]
  | cons c rest ih =>
    simp only [List.mem_cons, not_or] at h
    have hc : c ≠ 0 := fun hh => h.1 hh.symm
    simp [cstr, hc, ih h.2]

theorem set_last_append (t : List Nat) : (t ++ [0]).set t.length 0 = t ++ [0] := by
  induction t with
  | nil => rfl
  | cons c rest ih => simp [List.set, ih]

theorem cstrOutput_term (t : List Nat) (b : Nat) (h0 : 0 ∉ t)
    (hb : t.length + 1 ≤ b) : cstrOutput (t ++ [0]) b = t := by
  unfold cstrOutput
  by_cases hlt : t.length + 1 ≤ b - 1
  · rw [List.set_eq_of_length_le (by simp; omega), cstr_append_zero t h0]
  · have hb1 : b - 1 = t.length := by omega
    rw [hb1, set_last_append, cstr_append_zero t h0]

theorem cstrOutput_full (l : List Nat) (hb : 1 ≤ l.length)
    (h0 : 0 ∉ l.take (l.length - 1)) :
    cstrOutput l l.length = l.take (l.length - 1) := by
  induction l with
  | nil => simp at hb
  | cons c rest ih =>
    match rest with
    | [] => rfl
    | d :: rest2 =>
      simp only [List.length_cons, Nat.add_sub_cancel] at h0 ⊢
      simp only [List.take_succ_cons, List.mem_cons, not_or] at h0
      have hc : c ≠ 0 := fun hh => h0.1 hh.symm
      have ihr := ih (by simp) (by simpa using h0.2)
      simp only [cstrOutput, List.length_cons] at ihr ⊢
      show cstr ((c :: (d :: rest2)).set (rest2.length + 1) 0) =
        c :: (d :: rest2).take (rest2.length + 1 - 1)
      simp only [List.set]
      rw [show rest2.length + 1 - 1 = rest2.length by omega] at ihr ⊢
      simp only [cstr, if_neg hc]
      rw [ihr]

/-! ### Helper lemmas about `readZStr` (the byte-at-a-time read loop) -/

theorem readZStr_length_le (s : List Nat) (b : Nat) (st : List Nat)
    (h : readZStr s b = some st) : st.length ≤ b := by
  induction s generalizing b st with
  | nil =>
    match b with
    | 0 => simp [readZStr] at h; simp [← h]
    | b + 1 => simp [readZStr] at h
  | cons c rest ih =>
    match b with
    | 0 => simp [readZStr] at h; simp [← h]
    | b + 1 =>
      by_cases hc : c = 0
      · simp [readZStr, hc] at h
        simp [← h]
      · simp only [readZStr, if_neg hc, Nat.add_sub_cancel] at h
        rcases hr : readZStr rest b with _ | stored <;> rw [hr] at h
        · simp at h
        · simp only [Option.some.injEq] at h
          have := ih b stored hr
          simp [← h]
          omega

theorem readZStr_none_iff (s : List Nat) (b : Nat) :
    readZStr s b = none ↔ s.length < b ∧ 0 ∉ s := by
  induction s generalizing b with
  | nil =>
    match b with
    | 0 => simp [readZStr]
    | b + 1 => simp [readZStr]
  | cons c rest ih =>
    match b with
    | 0 => simp [readZStr]
    | b + 1 =>
      by_cases hc : c = 0
      · simp [readZStr, hc]
      · simp only [readZStr, if_neg hc, Nat.add_sub_cancel]
        rcases hr : readZStr rest b with _ | stored
        · have := (ih b).mp hr
          simp only [List.length_cons, List.mem_cons, not_or]
          constructor
          · intro _
            exact ⟨by omega, fun hh => hc hh.symm, this.2⟩
          · intro _
            trivial
        · have hnot : ¬(rest.length < b ∧ 0 ∉ rest) := by
            rw [← ih b]; simp [hr]
          simp only [List.length_cons, List.mem_cons, not_or]
          constructor
          · intro hh; simp at hh
          · intro hh
            exact absurd ⟨by omega, hh.2.2⟩ hnot

theorem readZStr_term (s : List Nat) (b : Nat) (h1 : (cstr s).length < b)
    (h2 : 0 ∈ s) : readZStr s b = some (cstr s ++ [0]) := by
  induction s generalizing b with
  | nil => simp at h2
  | cons c rest ih =>
    by_cases hc : c = 0
    · match b with
      | 0 => simp [cstr, hc] at h1
      | b + 1 => simp [readZStr, cstr, hc]
    · simp only [cstr, if_neg hc, List.length_cons] at h1 ⊢
      match b with
      | 0 => omega
      | b + 1 =>
        have h2' : 0 ∈ rest := by
          rcases List.mem_cons.mp h2 with h | h
          · exact absurd h.symm hc
          · exact h
        simp only [readZStr, if_neg hc, Nat.add_sub_cancel]
        rw [ih b (by omega) h2']
        simp

theorem readZStr_max (s : List Nat) (b : Nat) (h : b ≤ (cstr s).length) :
    readZStr s b = some (s.take b) := by
  induction s generalizing b with
  | nil =>
    simp [cstr] at h
    simp [h, readZStr]
  | cons c rest ih =>
    match b with
    | 0 => simp [readZStr]
    | b + 1 =>
      by_cases hc : c = 0
      · simp [cstr, hc] at h
      · simp only [cstr, if_neg hc, List.length_cons] at h
        simp only [readZStr, if_neg hc, Nat.add_sub_cancel, List.take_succ_cons]
        rw [ih b (by omega)]

/-! ### List index helpers -/

theorem getD_set_ne (l : List Nat) (i j v : Nat) (h : i ≠ j) :
    (l.set i v).getD j 0 = l.getD j 0 := by
  induction l generalizing i j with
  | nil => simp
  | cons c rest ih =>
    match i, j with
    | 0, 0 => exact absurd rfl h
    | 0, j + 1 => simp [List.set]
    | i + 1, 0 => simp [List.set]
    | i + 1, j + 1 =>
      simp only [List.set, List.getD_cons_succ]
      exact ih i j (by omega)

theorem getD_take_lt (l : List Nat) (n i : Nat) (h : i < n) :
    (l.take n).getD i 0 = l.getD i 0 := by
  induction l generalizing n i with
  | nil => simp
  | cons c rest ih =>
    match n, i with
    | 0, i => omega
    | n + 1, 0 => simp
    | n + 1, i + 1 =>
      simp only [List.take_succ_cons, List.getD_cons_succ]
      exact ih n i (by omega)

/-! ### Per-step invariants of the optional-field readers -/

theorem extraStep_ok_inv (data : List Nat) (flag xlen : Nat) (st st' : OptState)
    (h : extraStep data flag xlen st = .ok st') :
    st'.order = st.order ++ (if flag.testBit FEXTRA then [Field.fextra] else [])
  ∧ st'.fields.extra.isSome = (flag.testBit FEXTRA || st.fields.extra.isSome)
  ∧ st'.fields.filename = st.fields.filename
  ∧ st'.fields.comment = st.fields.comment
  ∧ st'.fields.hcrc = st.fields.hcrc := by
  unfold extraStep at h
  by_cases hb : flag.testBit FEXTRA = true
  · rw [if_pos hb] at h
    split at h
    · simp at h
    · simp only [Except.ok.injEq] at h
      subst h
      simp [hb]
  · rw [if_neg hb] at h
    simp only [Except.ok.injEq] at h
    subst h
    rw [Bool.not_eq_true] at hb
    simp [hb]

theorem fnameStep_ok_inv (data : List Nat) (flag : Nat) (st st' : OptState)
    (h : fnameStep data flag st = .ok st') :
    st'.order = st.order ++ (if flag.testBit FNAME then [Field.fname] else [])
  ∧ st'.fields.filename.isSome = (flag.testBit FNAME || st.fields.filename.isSome)
  ∧ st'.fields.extra = st.fields.extra
  ∧ st'.fields.comment = st.fields.comment
  ∧ st'.fields.hcrc = st.fields.hcrc := by
  unfold fnameStep at h
  by_cases hb : flag.testBit FNAME = true
  · rw [if_pos hb] at h
    rcases hr : readZStr (data.drop (fnamePos flag st.pos)) 128 with _ | stored <;>
      rw [hr] at h
    · simp at h
    · simp only [Except.ok.injEq] at h
      subst h
      simp [hb]
  · rw [if_neg hb] at h
    simp only [Except.ok.injEq] at h
    subst h
    rw [Bool.not_eq_true] at hb
    simp [hb]

theorem fcommentStep_ok_inv (data : List Nat) (flag : Nat) (st st' : OptState)
    (h : fcommentStep data flag st = .ok st') :
    st'.order = st.order ++ (if flag.testBit FCOMMENT then [Field.fcomment] else [])
  ∧ st'.fields.comment.isSome = (flag.testBit FCOMMENT || st.fields.comment.isSome)
  ∧ st'.fields.extra = st.fields.extra
  ∧ st'.fields.filename = st.fields.filename
  ∧ st'.fields.hcrc = st.fields.hcrc := by
  unfold fcommentStep at h
  by_cases hb : flag.testBit FCOMMENT = true
  · rw [if_pos hb] at h
    rcases hr : readZStr (data.drop st.pos) BUFSIZ with _ | stored <;> rw [hr] at h
    · simp at h
    · simp only [Except.ok.injEq] at h
      subst h
      simp [hb]
  · rw [if_neg hb] at h
    simp only [Except.ok.injEq] at h
    subst h
    rw [Bool.not_eq_true] at hb
    simp [hb]

theorem fhcrcStep_ok_inv (data : List Nat) (flag : Nat) (st st' : OptState)
    (h : fhcrcStep data flag st = .ok st') :
    st'.order = st.order ++ (if flag.testBit FHCRC then [Field.fhcrc] else [])
  ∧ st'.fields.hcrc.isSome = (flag.testBit FHCRC || st.fields.hcrc.isSome)
  ∧ st'.fields.extra = st.fields.extra
  ∧ st'.fields.filename = st.fields.filename
  ∧ st'.fields.comment = st.fields.comment := by
  unfold fhcrcStep at h
  by_cases hb : flag.testBit FHCRC = true
  · rw [if_pos hb] at h
    split at h
    · simp at h
    · simp only [Except.ok.injEq] at h
      subst h
      simp [hb]
  · rw [if_neg hb] at h
    simp only [Except.ok.injEq] at h
    subst h
    rw [Bool.not_eq_true] at hb
    simp [hb]

/-! ### Cursor-position lower bounds of the steps -/

theorem extraStep_pos (data : List Nat) (flag xlen : Nat) (st st' : OptState)
    (h : extraStep data flag xlen st = .ok st') : st.pos ≤ st'.pos := by
  unfold extraStep at h
  split at h
  · split at h
    · simp at h
    · simp only [Except.ok.injEq] at h
      subst h
      simp
  · simp only [Except.ok.injEq] at h
    subst h
    exact Nat.le_refl _

theorem fnameStep_pos (data : List Nat) (flag : Nat) (st st' : OptState)
    (h : fnameStep data flag st = .ok st') : st.pos - 2 ≤ st'.pos := by
  unfold fnameStep at h
  split at h
  · split at h
    · simp at h
    · simp only [Except.ok.injEq] at h
      subst h
      simp only
      unfold fnamePos
      split <;> omega
  · simp only [Except.ok.injEq] at h
    subst h
    omega

theorem fcommentStep_pos (data : List Nat) (flag : Nat) (st st' : OptState)
    (h : fcommentStep data flag st = .ok st') : st.pos ≤ st'.pos := by
  unfold fcommentStep at h
  split at h
  · split at h
    · simp at h
    · simp only [Except.ok.injEq] at h
      subst h
      simp
  · simp only [Except.ok.injEq] at h
    subst h
    exact Nat.le_refl _

/-! ### The cm byte (stream offset 2) does not influence control flow:
changing it changes no step of the parse other than the reported header. -/

theorem extraStep_set (data : List Nat) (flag xlen v : Nat) (st : OptState)
    (hp : 2 < st.pos) :
    extraStep (data.set 2 v) flag xlen st = extraStep data flag xlen st := by
  unfold extraStep
  rw [List.drop_set_of_lt v data hp]

theorem fnameStep_set (data : List Nat) (flag v : Nat) (st : OptState)
    (hp : 4 < st.pos) :
    fnameStep (data.set 2 v) flag st = fnameStep data flag st := by
  have h2 : 2 < fnamePos flag st.pos := by
    unfold fnamePos
    split <;> omega
  unfold fnameStep
  rw [List.drop_set_of_lt v data h2]

theorem fcommentStep_set (data : List Nat) (flag v : Nat) (st : OptState)
    (hp : 2 < st.pos) :
    fcommentStep (data.set 2 v) flag st = fcommentStep data flag st := by
  unfold fcommentStep
  rw [List.drop_set_of_lt v data hp]

theorem fhcrcStep_set (data : List Nat) (flag v : Nat) (st : OptState)
    (hp : 2 < st.pos) :
    fhcrcStep (data.set 2 v) flag st = fhcrcStep data flag st := by
  unfold fhcrcStep
  rw [List.drop_set_of_lt v data hp]

theorem optionalStage_set (data : List Nat) (flag xlen v : Nat) :
    optionalStage (data.set 2 v) flag xlen 12 = optionalStage data flag xlen 12 := by
  unfold optionalStage
  rw [extraStep_set data flag xlen v (initState 12) (by simp [initState])]
  cases he1 : extraStep data flag xlen (initState 12) with
  | error e => rfl
  | ok st1 =>
    have hp1 : 12 ≤ st1.pos := by
      have := extraStep_pos data flag xlen (initState 12) st1 he1
      simpa [initState] using this
    dsimp only
    rw [fnameStep_set data flag v st1 (by omega)]
    cases he2 : fnameStep data flag st1 with
    | error e => rfl
    | ok st2 =>
      have hp2 : 10 ≤ st2.pos := by
        have := fnameStep_pos data flag st1 st2 he2
        omega
      dsimp only
      rw [fcommentStep_set data flag v st2 (by omega)]
      cases he3 : fcommentStep data flag st2 with
      | error e => rfl
      | ok st3 =>
        have hp3 : 10 ≤ st3.pos := by
          have := fcommentStep_pos data flag st2 st3 he3
          omega
        dsimp only
        rw [fhcrcStep_set data flag v st3 (by omega)]

theorem trailerRead_set (data : List Nat) (v : Nat) (h : 12 ≤ data.length) :
    trailerRead (data.set 2 v) = trailerRead data := by
  unfold trailerRead
  rw [List.length_set, List.drop_set_of_lt v data (by omega : 2 < data.length - 8)]

theorem errOf_parse_set (d : List Nat) (v : Nat) :
    errOf (parse (d.set 2 v)) = errOf (parse d) := by
  by_cases hlen : d.length < 12
  · unfold parse
    rw [if_pos (by simpa [List.length_set] using hlen), if_pos hlen]
  · have h0 := getD_set_ne d 2 0 v (by omega)
    have h1 := getD_set_ne d 2 1 v (by omega)
    have h3 := getD_set_ne d 2 3 v (by omega)
    have h10 := getD_set_ne d 2 10 v (by omega)
    have h11 := getD_set_ne d 2 11 v (by omega)
    simp only [parse, decodeHeader, List.length_set, h0, h1, h3, h10, h11]
    rw [if_neg hlen, if_neg hlen]
    by_cases hm : d.getD 0 0 = 0x1f ∧ d.getD 1 0 = 0x8b
    · rw [if_pos hm, if_pos hm, optionalStage_set d _ _ v,
        trailerRead_set d v (by omega)]
      cases ho : optionalStage d (d.getD 3 0) (u16le (d.getD 10 0) (d.getD 11 0)) 12 with
      | error e => rfl
      | ok st =>
        cases ht : trailerRead d with
        | error e => rfl
        | ok t => simp [errOf]
    · rw [if_neg hm, if_neg hm]

/-! ### Successful-parse inversion: a successful run saw at least 12 bytes
and its trailer is exactly what `trailerRead` yields on the stream. -/

theorem parse_ok_inv (data : List Nat) (r : ParseOk) (c : Bool)
    (h : parse data = ⟨.ok r, c⟩) :
    12 ≤ data.length ∧ trailerRead data = .ok r.trailer := by
  unfold parse at h
  by_cases hlen : data.length < 12
  · rw [if_pos hlen] at h
    simp at h
  · rw [if_neg hlen] at h
    by_cases hm : (decodeHeader data).id1 = 0x1f ∧ (decodeHeader data).id2 = 0x8b
    · rw [if_pos hm] at h
      rcases ho : optionalStage data (decodeHeader data).flag (decodeHeader data).xlen 12
          with e | st <;> rw [ho] at h
      · simp at h
      · rcases ht : trailerRead data with e | t <;> rw [ht] at h
        · simp at h
        · simp only [ParseResult.mk.injEq, Outcome.ok.injEq] at h
          refine ⟨by omega, ?_⟩
          rw [← h.1]
    · rw [if_neg hm] at h
      simp at h

/-- When the first `b` bytes of the stream suffix are all nonzero and at
least `b` bytes are available, the loop stores exactly `b` bytes and the
printed text is the first `b - 1` of them (the last buffer byte having
been overwritten with the terminator). -/
theorem max_case_general (s : List Nat) (b : Nat) (hb : 1 ≤ b)
    (hge : b ≤ (cstr s).length) :
    readZStr s b = some (s.take b) ∧ cstrOutput (s.take b) b = s.take (b - 1) := by
  have hsl : b ≤ s.length := le_trans hge (cstr_length_le s)
  have hlen : (s.take b).length = b := by
    rw [List.length_take]
    omega
  refine ⟨readZStr_max s b hge, ?_⟩
  have h0 : 0 ∉ (s.take b).take ((s.take b).length - 1) := by
    rw [hlen, List.take_take]
    have hmin : (b - 1) ⊓ b = b - 1 := by omega
    rw [hmin]
    exact take_cstr_no_zero s (b - 1) (by omega)
  have hfull := cstrOutput_full (s.take b) (by omega) h0
  rw [hlen] at hfull
  rw [hfull, List.take_take]
  have hmin : (b - 1) ⊓ b = b - 1 := by omega
  rw [hmin]

/-! ### The claims -/

/-- C1: the spec requires the 2-byte retreat before whichever of
filename/comment/checksum comes first when FEXTRA is unset, but the code
performs the retreat only inside the FNAME branch (lines 117-118).  On a
stream with FEXTRA unset and only FCOMMENT set, with the comment
`hello\0` starting at offset 10 (where the over-read xlen bytes sit), the
program reads the comment from offset 12 and reports `llo`, losing the
two over-read bytes, instead of `hello`. -/
theorem comment_read_without_retreat :
    commentProj (parse [0x1f, 0x8b, 0x08, 0x10, 0, 0, 0, 0, 0, 0x03,
      104, 101, 108, 108, 111, 0]) = some [108, 108, 111] ∧
    commentProj (parse [0x1f, 0x8b, 0x08, 0x10, 0, 0, 0, 0, 0, 0x03,
      104, 101, 108, 108, 111, 0]) ≠ some [104, 101, 108, 108, 111] := by
  constructor
  · rfl
  · decide

/-- C2: on any run of the optional-field stage that completes, the fields
read are exactly those whose flag bit is set, in the fixed order extra
field, filename, comment, header checksum; and a step whose flag bit is
unset is the identity on the stream state (consumes zero bytes). -/
theorem optional_fields_match_flags (data : List Nat) (flag xlen pos : Nat)
    (st' : OptState) (h : optionalStage data flag xlen pos = .ok st') :
    st'.order = (if flag.testBit FEXTRA then [Field.fextra] else []) ++
                (if flag.testBit FNAME then [Field.fname] else []) ++
                (if flag.testBit FCOMMENT then [Field.fcomment] else []) ++
                (if flag.testBit FHCRC then [Field.fhcrc] else [])
  ∧ st'.fields.extra.isSome = flag.testBit FEXTRA
  ∧ st'.fields.filename.isSome = flag.testBit FNAME
  ∧ st'.fields.comment.isSome = flag.testBit FCOMMENT
  ∧ st'.fields.hcrc.isSome = flag.testBit FHCRC
  ∧ (flag.testBit FEXTRA = false → ∀ st, extraStep data flag xlen st = .ok st)
  ∧ (flag.testBit FNAME = false → ∀ st, fnameStep data flag st = .ok st)
  ∧ (flag.testBit FCOMMENT = false → ∀ st, fcommentStep data flag st = .ok st)
  ∧ (flag.testBit FHCRC = false → ∀ st, fhcrcStep data flag st = .ok st) := by
  unfold optionalStage at h
  rcases he1 : extraStep data flag xlen (initState pos) with e | st1 <;> rw [he1] at h
  · simp at h
  dsimp only at h
  rcases he2 : fnameStep data flag st1 with e | st2 <;> rw [he2] at h
  · simp at h
  dsimp only at h
  rcases he3 : fcommentStep data flag st2 with e | st3 <;> rw [he3] at h
  · simp at h
  dsimp only at h
  obtain ⟨o1, e1, f1, c1, k1⟩ := extraStep_ok_inv _ _ _ _ _ he1
  obtain ⟨o2, f2, e2, c2, k2⟩ := fnameStep_ok_inv _ _ _ _ he2
  obtain ⟨o3, c3, e3, f3, k3⟩ := fcommentStep_ok_inv _ _ _ _ he3
  obtain ⟨o4, k4, e4, f4, c4⟩ := fhcrcStep_ok_inv _ _ _ _ h
  refine ⟨?_, ?_, ?_, ?_, ?_, ?_, ?_, ?_, ?_⟩
  · rw [o4, o3, o2, o1]
    simp [initState, List.append_assoc]
  · rw [e4, e3, e2, e1]
    simp [initState]
  · rw [f4, f3, f2, f1]
    simp [initState]
  · rw [c4, c3, c2, c1]
    simp [initState]
  · rw [k4, k3, k2, k1]
    simp [initState]
  · intro hb st0
    unfold extraStep
    rw [if_neg (by simp [hb])]
  · intro hb st0
    unfold fnameStep
    rw [if_neg (by simp [hb])]
  · intro hb st0
    unfold fcommentStep
    rw [if_neg (by simp [hb])]
  · intro hb st0
    unfold fhcrcStep
    rw [if_neg (by simp [hb])]

/-- C2 witness: on a concrete stream with only FNAME set (flag byte 8),
the order of fields read is exactly the filename alone. -/
theorem optional_fields_match_flags_witness :
    (⟨12, ⟨none, some [65], none, none⟩, [Field.fname]⟩ : OptState).order =
      (if (8 : Nat).testBit FEXTRA then [Field.fextra] else []) ++
      (if (8 : Nat).testBit FNAME then [Field.fname] else []) ++
      (if (8 : Nat).testBit FCOMMENT then [Field.fcomment] else []) ++
      (if (8 : Nat).testBit FHCRC then [Field.fhcrc] else []) :=
  (optional_fields_match_flags [0x1f, 0x8b, 8, 8, 0, 0, 0, 0, 0, 3, 65, 0] 8 0 12
    ⟨12, ⟨none, some [65], none, none⟩, [Field.fname]⟩ rfl).1

/-- C3 counterexample: on a 5-byte input (whose first two bytes are not
0x1f 0x8b), the program fails at the fixed-header read with
TruncatedInput, not with InvalidMagic, so the claim does not hold of
inputs shorter than the 12-byte fixed header. -/
theorem short_input_not_invalid_magic :
    (parse [0, 0, 0, 0, 0]).outcome = .err .TruncatedInput ∧
    (parse [0, 0, 0, 0, 0]).outcome ≠ .err .InvalidMagic := by
  constructor
  · rfl
  · decide

/-- C3 (amended): for every input of at least 12 bytes (the fixed-header
read size) whose first two bytes are not 0x1f 0x8b, the parse fails with
InvalidMagic, and the whole result is already determined by the 12 bytes
read (no bytes beyond those already read are consumed). -/
theorem invalid_magic_of_full_header (d : List Nat) (hlen : 12 ≤ d.length)
    (hm : ¬(d.getD 0 0 = 0x1f ∧ d.getD 1 0 = 0x8b)) :
    parse d = ⟨.err .InvalidMagic, false⟩ ∧ parse (d.take 12) = parse d := by
  have hmm : ¬((decodeHeader d).id1 = 0x1f ∧ (decodeHeader d).id2 = 0x8b) := by
    simpa [decodeHeader] using hm
  have h1 : parse d = ⟨.err .InvalidMagic, false⟩ := by
    unfold parse
    rw [if_neg (by omega), if_neg hmm]
  have hm12 : ¬((decodeHeader (d.take 12)).id1 = 0x1f ∧
      (decodeHeader (d.take 12)).id2 = 0x8b) := by
    simp only [decodeHeader]
    rw [getD_take_lt d 12 0 (by omega), getD_take_lt d 12 1 (by omega)]
    exact hm
  have h2 : parse (d.take 12) = ⟨.err .InvalidMagic, false⟩ := by
    unfold parse
    rw [if_neg (by rw [List.length_take]; omega), if_neg hm12]
  exact ⟨h1, h2.trans h1.symm⟩

/-- C3 witness: a concrete 12-byte stream with wrong magic bytes. -/
theorem invalid_magic_of_full_header_witness :
    parse [1, 2, 3, 4, 5, 6, 7, 8, 9, 10, 11, 12] = ⟨.err .InvalidMagic, false⟩ ∧
    parse ([1, 2, 3, 4, 5, 6, 7, 8, 9, 10, 11, 12].take 12) =
      parse [1, 2, 3, 4, 5, 6, 7, 8, 9, 10, 11, 12] :=
  invalid_magic_of_full_header [1, 2, 3, 4, 5, 6, 7, 8, 9, 10, 11, 12]
    (by decide) (by decide)

/-- C4: with FNAME set, the filename is read one byte at a time from the
(possibly retreated) cursor until a zero byte or the 128-byte maximum.
It fails with TruncatedInput exactly when the stream ends before a
terminator or the maximum; on a terminator the stored text is the bytes
before the zero (terminator excluded); at the maximum the reported text
is the first 127 bytes; and the reported text never contains a zero byte
and never exceeds 127 bytes (null-terminated even when truncated). -/
theorem fname_reading_spec (data : List Nat) (flag : Nat) (st : OptState)
    (h3 : flag.testBit FNAME = true) :
    (fnameStep data flag st = .error .TruncatedInput ↔
      ((data.drop (fnamePos flag st.pos)).length < 128 ∧
        0 ∉ data.drop (fnamePos flag st.pos)))
  ∧ ((cstr (data.drop (fnamePos flag st.pos))).length < 128 →
      0 ∈ data.drop (fnamePos flag st.pos) →
      fnameStep data flag st =
        .ok ⟨fnamePos flag st.pos +
              (cstr (data.drop (fnamePos flag st.pos))).length + 1,
             { st.fields with
                filename := some (cstr (data.drop (fnamePos flag st.pos))) },
             st.order ++ [Field.fname]⟩)
  ∧ (128 ≤ (cstr (data.drop (fnamePos flag st.pos))).length →
      fnameStep data flag st =
        .ok ⟨fnamePos flag st.pos + 128,
             { st.fields with
                filename := some ((data.drop (fnamePos flag st.pos)).take 127) },
             st.order ++ [Field.fname]⟩)
  ∧ (∀ st' txt, fnameStep data flag st = .ok st' →
      st'.fields.filename = some txt → 0 ∉ txt ∧ txt.length ≤ 127) := by
  have p1 : fnameStep data flag st = .error .TruncatedInput ↔
      ((data.drop (fnamePos flag st.pos)).length < 128 ∧
        0 ∉ data.drop (fnamePos flag st.pos)) := by
    unfold fnameStep
    rw [if_pos h3]
    rcases hr : readZStr (data.drop (fnamePos flag st.pos)) 128 with _ | stored
    · constructor
      · intro _
        exact (readZStr_none_iff _ _).mp hr
      · intro _
        rfl
    · constructor
      · intro hcon
        simp at hcon
      · intro hrhs
        have hn := (readZStr_none_iff (data.drop (fnamePos flag st.pos)) 128).mpr hrhs
        rw [hr] at hn
        simp at hn
  have p2 : (cstr (data.drop (fnamePos flag st.pos))).length < 128 →
      0 ∈ data.drop (fnamePos flag st.pos) →
      fnameStep data flag st =
        .ok ⟨fnamePos flag st.pos +
              (cstr (data.drop (fnamePos flag st.pos))).length + 1,
             { st.fields with
                filename := some (cstr (data.drop (fnamePos flag st.pos))) },
             st.order ++ [Field.fname]⟩ := by
    intro hlt hmem
    unfold fnameStep
    rw [if_pos h3, readZStr_term _ 128 hlt hmem]
    dsimp only
    rw [cstrOutput_term _ 128 (cstr_not_mem_zero _) (by omega)]
    simp [List.length_append, Nat.add_assoc]
  have p3 : 128 ≤ (cstr (data.drop (fnamePos flag st.pos))).length →
      fnameStep data flag st =
        .ok ⟨fnamePos flag st.pos + 128,
             { st.fields with
                filename := some ((data.drop (fnamePos flag st.pos)).take 127) },
             st.order ++ [Field.fname]⟩ := by
    intro hge
    unfold fnameStep
    rw [if_pos h3, readZStr_max _ 128 hge]
    dsimp only
    have hmax := max_case_general (data.drop (fnamePos flag st.pos)) 128
      (by omega) hge
    rw [hmax.2]
    have hlen : ((data.drop (fnamePos flag st.pos)).take 128).length = 128 := by
      rw [List.length_take]
      have := cstr_length_le (data.drop (fnamePos flag st.pos))
      omega
    rw [hlen]
  refine ⟨p1, p2, p3, ?_⟩
  intro st' txt hok htxt
  by_cases hge : 128 ≤ (cstr (data.drop (fnamePos flag st.pos))).length
  · rw [p3 hge] at hok
    simp only [Except.ok.injEq] at hok
    subst hok
    simp only [Option.some.injEq] at htxt
    rw [← htxt]
    constructor
    · exact take_cstr_no_zero _ 127 (by omega)
    · rw [List.length_take]
      omega
  · by_cases hz : 0 ∈ data.drop (fnamePos flag st.pos)
    · rw [p2 (by omega) hz] at hok
      simp only [Except.ok.injEq] at hok
      subst hok
      simp only [Option.some.injEq] at htxt
      rw [← htxt]
      exact ⟨cstr_not_mem_zero _, by omega⟩
    · have hnone : readZStr (data.drop (fnamePos flag st.pos)) 128 = none := by
        rw [readZStr_none_iff]
        refine ⟨?_, hz⟩
        have h1 : ¬((cstr (data.drop (fnamePos flag st.pos))).length <
            (data.drop (fnamePos flag st.pos)).length) :=
          fun hlt => hz ((cstr_length_lt_iff _).mp hlt)
        omega
      unfold fnameStep at hok
      rw [if_pos h3, hnone] at hok
      simp at hok

/-- C4 witness: FNAME set, FEXTRA unset on a concrete 12-byte stream:
the cursor retreats to offset 10 and the one-byte name `A` is read with
its terminator. -/
theorem fname_reading_spec_witness :
    fnameStep [0x1f, 0x8b, 8, 8, 0, 0, 0, 0, 0, 3, 65, 0] 8 (initState 12) =
      .ok ⟨12, ⟨none, some [65], none, none⟩, [Field.fname]⟩ :=
  (fname_reading_spec [0x1f, 0x8b, 8, 8, 0, 0, 0, 0, 0, 3, 65, 0] 8
    (initState 12) (by decide)).2.1 (by decide) (by decide)

/-- C5 counterexample: on an input of exactly 7 bytes the parse outcome
is TruncatedInput from the 12-byte fixed-header read, not SeekOutOfRange
from the trailer seek — the trailer stage is never reached. -/
theorem seven_byte_not_seek_error :
    parse (List.replicate 7 0) = ⟨.err .TruncatedInput, true⟩ ∧
    (parse (List.replicate 7 0)).outcome ≠ .err .SeekOutOfRange := by
  constructor
  · rfl
  · decide

/-- C5 (amended): every input of exactly 7 bytes fails with
TruncatedInput at the fixed-header read (which needs 12 bytes); the
trailer seek, which would yield SeekOutOfRange for streams shorter than
8 bytes, is never executed. -/
theorem seven_byte_truncated (d : List Nat) (h : d.length = 7) :
    parse d = ⟨.err .TruncatedInput, true⟩ := by
  unfold parse
  rw [if_pos (by omega)]

/-- C5 witness: a concrete 7-byte stream. -/
theorem seven_byte_truncated_witness :
    parse [1, 1, 1, 1, 1, 1, 1] = ⟨.err .TruncatedInput, true⟩ :=
  seven_byte_truncated [1, 1, 1, 1, 1, 1, 1] (by decide)

/-- C6: the trailer of any two successful parses agrees whenever the
final 8 bytes of the two streams agree, whatever the header flags or
optional fields were; and the trailer of a successful parse is exactly
what the trailer reader (seek to 8 before end, read 4+4 bytes) yields on
the stream. -/
theorem trailer_depends_only_on_last8 (d1 d2 : List Nat) (r1 r2 : ParseOk)
    (c1 c2 : Bool) (h1 : parse d1 = ⟨.ok r1, c1⟩) (h2 : parse d2 = ⟨.ok r2, c2⟩)
    (h8 : d1.drop (d1.length - 8) = d2.drop (d2.length - 8)) :
    r1.trailer = r2.trailer ∧ trailerRead d1 = .ok r1.trailer := by
  obtain ⟨hl1, ht1⟩ := parse_ok_inv d1 r1 c1 h1
  obtain ⟨hl2, ht2⟩ := parse_ok_inv d2 r2 c2 h2
  have heq : trailerRead d1 = trailerRead d2 := by
    unfold trailerRead
    rw [if_neg (show ¬(d1.length < 8) by omega),
      if_neg (show ¬(d2.length < 8) by omega), h8]
  rw [ht1, ht2] at heq
  simp only [Except.ok.injEq] at heq
  exact ⟨heq, ht1⟩

/-- C6 witness: a flagless 12-byte member and a 20-byte member with a
filename share their last 8 bytes and get the same trailer. -/
theorem trailer_depends_only_on_last8_witness :
    trailerRead [31, 139, 8, 0, 0, 0, 0, 0, 0, 3, 9, 9] = .ok (0, 151585536) :=
  (trailer_depends_only_on_last8
    [31, 139, 8, 0, 0, 0, 0, 0, 0, 3, 9, 9]
    ([31, 139, 8, 8, 0, 0, 0, 0, 0, 3, 65, 0] ++ [0, 0, 0, 0, 0, 3, 9, 9])
    ⟨⟨31, 139, 8, 0, 0, 0, 3, 2313⟩, ⟨none, none, none, none⟩, [], 12,
      (0, 151585536)⟩
    ⟨⟨31, 139, 8, 8, 0, 0, 3, 65⟩, ⟨none, some [65], none, none⟩,
      [Field.fname], 12, (0, 151585536)⟩
    true true (by decide) (by decide) (by decide)).2

/-- C7 counterexample: on a stream whose compression-method byte is 0x07
the program prints nothing at all about the compression method (the
report of lines 76-97 contains only the XFL and OS lines) — there is no
informational mismatch report — although parsing does continue to a
successful completion. -/
theorem cm_mismatch_unreported :
    headerReport (decodeHeader [0x1f, 0x8b, 0x07, 0, 0, 0, 0, 0, 0, 3, 0, 0]) =
      [ReportItem.xflLine 0, ReportItem.osLine true]
  ∧ ReportItem.methodDeflate ∉
      headerReport (decodeHeader [0x1f, 0x8b, 0x07, 0, 0, 0, 0, 0, 0, 3, 0, 0])
  ∧ errOf (parse [0x1f, 0x8b, 0x07, 0, 0, 0, 0, 0, 0, 3, 0, 0]) = none := by
  refine ⟨rfl, by decide, rfl⟩

/-- C7 (amended): a compressionMethod other than 0x08 is not an error and
parsing continues identically — the cm byte (stream offset 2) cannot
change which error, if any, the parse produces — but it is not reported
either: the deflate line appears in the report exactly when cm is 8, and
no line mentions any other method value. -/
theorem cm_informational_only (h : GzipHeader) (d : List Nat) (v : Nat) :
    (ReportItem.methodDeflate ∈ headerReport h ↔ h.cm = 8)
  ∧ errOf (parse (d.set 2 v)) = errOf (parse d) := by
  refine ⟨?_, errOf_parse_set d v⟩
  by_cases hcm : h.cm = 8
  · simp [headerReport, hcm]
  · by_cases hf : h.flag = 0 <;> by_cases hmt : h.mtime = 0 <;>
      simp [headerReport, hcm, hf, hmt]

/-- C7 witness: concrete instantiation at a cm = 7 header and a cm-byte
overwrite on a concrete stream. -/
theorem cm_informational_only_witness :
    (ReportItem.methodDeflate ∈
        headerReport (decodeHeader [0x1f, 0x8b, 0x07, 0, 0, 0, 0, 0, 0, 3, 0, 0]) ↔
      (decodeHeader [0x1f, 0x8b, 0x07, 0, 0, 0, 0, 0, 0, 3, 0, 0]).cm = 8)
  ∧ errOf (parse ([0x1f, 0x8b, 0x07, 0, 0, 0, 0, 0, 0, 3, 0, 0].set 2 9)) =
      errOf (parse [0x1f, 0x8b, 0x07, 0, 0, 0, 0, 0, 0, 3, 0, 0]) :=
  cm_informational_only (decodeHeader [0x1f, 0x8b, 0x07, 0, 0, 0, 0, 0, 0, 3, 0, 0])
    [0x1f, 0x8b, 0x07, 0, 0, 0, 0, 0, 0, 3, 0, 0] 9

/-- C8: the exit path taken when the magic bytes mismatch (lines 72-75)
returns without executing `close(fd)`: the byte source is NOT released on
that error path, so the release is not unconditional.  Every other
modelled exit path does close the descriptor. -/
theorem invalid_magic_leaks_fd :
    parse (List.replicate 12 0) = ⟨.err .InvalidMagic, false⟩ ∧
    (parse (List.replicate 12 0)).fdClosed = false := by
  constructor
  · rfl
  · rfl

/-- C9: the signed return of `read` is stored into the 32-bit unsigned
`bytes_read`, so an error return of -1 is stored as 2^32-1, the check
`bytes_read < 12` is then false and no TruncatedInput is reported, while
genuine short reads (0 ≤ n ≤ 12 bytes) are flagged exactly when n < 12. -/
theorem read_error_wraps_unsigned (n : Nat) (hn : n ≤ 12) :
    storeBytesRead (-1) = 4294967295
  ∧ headerShortReadDetected (-1) = false
  ∧ (headerShortReadDetected (n : Int) = true ↔ n < 12) := by
  refine ⟨by decide, by decide, ?_⟩
  have hs : storeBytesRead (n : Int) = n := by
    unfold storeBytesRead
    rw [Int.emod_eq_of_lt (by omega) (by omega)]
    simp
  simp [headerShortReadDetected, hs]

/-- C9 witness: a 5-byte short read is detected while the -1 error return
is not. -/
theorem read_error_wraps_unsigned_witness :
    storeBytesRead (-1) = 4294967295
  ∧ headerShortReadDetected (-1) = false
  ∧ (headerShortReadDetected ((5 : Nat) : Int) = true ↔ (5 : Nat) < 12) :=
  read_error_wraps_unsigned 5 (by decide)

/-- C10: the string-reading loops never store more bytes than their
buffer holds (at most 128 for the filename, at most BUFSIZ for the
comment, so every store lands at an in-bounds index); and when no zero
byte occurs within the maximum, exactly the maximum number of bytes is
consumed and the reported text is the first maximum-minus-one bytes (the
last buffer byte being overwritten with the terminator). -/
theorem zstring_buffer_bounds (s st : List Nat) :
    (readZStr s 128 = some st → st.length ≤ 128)
  ∧ (readZStr s BUFSIZ = some st → st.length ≤ BUFSIZ)
  ∧ (0 ∉ s.take 128 → 128 ≤ s.length →
      readZStr s 128 = some (s.take 128) ∧
        cstrOutput (s.take 128) 128 = s.take 127)
  ∧ (0 ∉ s.take BUFSIZ → BUFSIZ ≤ s.length →
      readZStr s BUFSIZ = some (s.take BUFSIZ) ∧
        cstrOutput (s.take BUFSIZ) BUFSIZ = s.take (BUFSIZ - 1)) := by
  refine ⟨readZStr_length_le s 128 st, readZStr_length_le s BUFSIZ st, ?_, ?_⟩
  · intro h0 hl
    have hge := le_cstr_length_of_take s 128 h0 hl
    have hmax := max_case_general s 128 (by omega) hge
    exact ⟨hmax.1, hmax.2.trans (by norm_num)⟩
  · intro h0 hl
    have hge := le_cstr_length_of_take s BUFSIZ h0 hl
    have hmax := max_case_general s BUFSIZ (by decide) hge
    exact ⟨hmax.1, hmax.2⟩

/-- C10 witness: a zero-free stream of exactly BUFSIZ bytes is consumed
whole and reported truncated to BUFSIZ - 1 bytes. -/
theorem zstring_buffer_bounds_witness :
    readZStr (List.replicate 8192 1) BUFSIZ =
      some ((List.replicate 8192 1).take BUFSIZ) ∧
    cstrOutput ((List.replicate 8192 1).take BUFSIZ) BUFSIZ =
      (List.replicate 8192 1).take (BUFSIZ - 1) :=
  (zstring_buffer_bounds (List.replicate 8192 1) []).2.2.2
    (by
      rw [List.take_replicate]
      intro hmem
      rw [List.mem_replicate] at hmem
      exact absurd hmem.2 (by decide))
    (by
      rw [List.length_replicate]
      decide)

end Gzip
